import Mathlib

/-!
Verification of the Dynamic Quote Generator (alx_fe_javascript).

The file embeds the quote-management logic of `dom-manipulation/script.js`
into Lean: the quote data model, the server/local merge, category
derivation, random-quote selection (with the random draw made an explicit
parameter), HTML escaping, quote addition, JSON import/export and the
startup load.  The JSON text codec (the host's `JSON.parse` /
`JSON.stringify`) is modelled by an executable parser and printer over
`List Char`.  Theorems at the end settle the spec claims.
-/

namespace QuoteApp

/-- A quote record `\x7b text, category \x7d` as stored in the `quotes` array. -/
structure Quote where
  text : String
  category : String
deriving DecidableEq, Repr

/-- JSON values as produced by the host JSON codec.  Numbers are modelled
as rationals (exact decimal values of numeric literals). -/
inductive Json where
  | null : Json
  | bool (b : Bool) : Json
  | num (q : Rat) : Json
  | str (s : String) : Json
  | arr (items : List Json) : Json
  | obj (fields : List (String × Json)) : Json

/-! ### Merge (`mergeServerLocal`, script.js lines 270-291) -/

/-- `mergeServerLocal(serverQuotes, localQuotes)`: server items first
(building the `seen` set of server texts), then local items whose text the
server does not have; conflicts are the local items whose text occurs in
some server item. -/
def mergeServerLocal (serverQuotes localQuotes : List Quote) :
    List Quote × List Quote :=
  let seen := serverQuotes.map (fun sq => sq.text)
  let merged := serverQuotes ++
    localQuotes.filter (fun lq => !(seen.contains lq.text))
  let conflicts := localQuotes.filter
    (fun lq => serverQuotes.any (fun sq => sq.text == lq.text))
  (merged, conflicts)

/-! ### Categories (`populateCategories`, script.js lines 125-150) -/

/-- The category list built by `populateCategories`:
`['all', ...new Set(quotes.map(q => q.category))]`, with the JS `Set`
modelled by a fold that appends a value only at its first occurrence. -/
def populateCategories (qs : List Quote) : List String :=
  "all" :: (qs.map (fun q => q.category)).foldl
    (fun acc x => if acc.contains x then acc else acc ++ [x]) []

/-- Specification-side rendering of "distinct values in order of first
occurrence": keep the head, drop its later duplicates, recurse. -/
def firstOccurrences : List String → List String
  | [] => []
  | x :: xs => x :: firstOccurrences (xs.filter (fun y => y != x))
termination_by l => l.length
decreasing_by
  simp only [List.length_cons]
  exact Nat.lt_succ_of_le (List.length_filter_le _ _)

/-! ### Random selection (`showRandomQuote`, script.js lines 49-70) -/

/-- The candidate subset `showRandomQuote` draws from: the whole
collection when the stored filter is `"all"`, otherwise the items whose
category equals the filter. -/
def candidateQuotes (qs : List Quote) (filter : String) : List Quote :=
  if filter = "all" then qs else qs.filter (fun q => q.category == filter)

/-- `showRandomQuote`'s selection logic with the random draw made an
explicit parameter: `none` when the filtered subset is empty, otherwise
the element at index `rand % length` (the image of
`Math.floor(Math.random() * filtered.length)`). -/
def pickQuote (qs : List Quote) (filter : String) (rand : Nat) : Option Quote :=
  let filtered := candidateQuotes qs filter
  if h : filtered.length = 0 then none
  else some (filtered.get ⟨rand % filtered.length,
    Nat.mod_lt _ (Nat.pos_of_ne_zero h)⟩)

/-! ### HTML escaping (`escapeHtml`, script.js lines 73-78) -/

/-- Per-character image of `str.replace(/[&<>"']/g, m => entity)`. -/
def escapeHtmlChar (c : Char) : List Char :=
  if c = '&' then ['&', 'a', 'm', 'p', ';']
  else if c = '<' then ['&', 'l', 't', ';']
  else if c = '>' then ['&', 'g', 't', ';']
  else if c = '\x22' then ['&', 'q', 'u', 'o', 't', ';']
  else if c = '\x27' then ['&', '#', '3', '9', ';']
  else [c]

/-- `escapeHtml(str)`: every character replaced by its escape image. -/
def escapeHtml (s : String) : String :=
  String.mk (s.data.flatMap escapeHtmlChar)

/-- Prepend a character to the first component of an optional pair of
character lists. -/
def consFst (c : Char) : Option (List Char × List Char) →
    Option (List Char × List Char)
  | none => none
  | some (l, r) => some (c :: l, r)

/-- Match a literal token at the head of the input, returning the rest. -/
def expectChars : List Char → List Char → Option (List Char)
  | [], cs => some cs
  | _ :: _, [] => none
  | t :: ts, c :: cs => if c = t then expectChars ts cs else none

/-- Recognise one HTML entity produced by `escapeHtmlChar` (the `&`
already consumed), returning the decoded character and the rest. -/
def entityHead (cs : List Char) : Option (Char × List Char) :=
  match expectChars ['a', 'm', 'p', ';'] cs with
  | some r => some ('&', r)
  | none =>
  match expectChars ['l', 't', ';'] cs with
  | some r => some ('<', r)
  | none =>
  match expectChars ['g', 't', ';'] cs with
  | some r => some ('>', r)
  | none =>
  match expectChars ['q', 'u', 'o', 't', ';'] cs with
  | some r => some ('\x22', r)
  | none =>
  match expectChars ['#', '3', '9', ';'] cs with
  | some r => some ('\x27', r)
  | none => none

/-- One step of the entity decoder, with `rec` resolving the tail. -/
def unescapeStep (rec : List Char → Option (List Char)) (l : List Char) :
    Option (List Char) :=
  match l with
  | [] => some []
  | c :: cs =>
    if c = '&' then
      match entityHead cs with
      | some (d, r) => (rec r).map (fun x => d :: x)
      | none => none
    else (rec cs).map (fun x => c :: x)

/-- Fuel-indexed entity decoder. -/
def unescapeN : Nat → List Char → Option (List Char)
  | 0, _ => none
  | fuel + 1, l => unescapeStep (unescapeN fuel) l

/-- Decoder inverse to `escapeHtmlChar`, used to establish injectivity of
`escapeHtml`: reads entities back to their characters and refuses any
other use of `&`. -/
def unescapeHtml (l : List Char) : Option (List Char) :=
  unescapeN (l.length + 1) l

/-! ### JSON text codec

Modelled from the spec: the host platform's `JSON.parse` and
`JSON.stringify` (not repository code) — an executable parser and printer
for JSON text, with numbers read as exact decimal rationals. -/

/-- Lower-case hexadecimal digit for `n < 16`. -/
def hexChar (n : Nat) : Char :=
  if n < 10 then Char.ofNat (48 + n) else Char.ofNat (87 + n)

/-- Value of one hexadecimal digit character. -/
def decodeHex (c : Char) : Option Nat :=
  if '0' ≤ c ∧ c ≤ '9' then some (c.toNat - 48)
  else if 'a' ≤ c ∧ c ≤ 'f' then some (c.toNat - 87)
  else if 'A' ≤ c ∧ c ≤ 'F' then some (c.toNat - 55)
  else none

/-- Value of a four-digit hexadecimal escape. -/
def decodeHex4 (h1 h2 h3 h4 : Char) : Option Nat :=
  match decodeHex h1, decodeHex h2, decodeHex h3, decodeHex h4 with
  | some a, some b, some c, some d => some (((a * 16 + b) * 16 + c) * 16 + d)
  | _, _, _, _ => none

/-- `JSON.stringify` escaping of one string character. -/
def encodeChar (c : Char) : List Char :=
  if c = '\x22' then ['\\', '\x22']
  else if c = '\\' then ['\\', '\\']
  else if c = '\n' then ['\\', 'n']
  else if c = '\x0d' then ['\\', 'r']
  else if c = '\x09' then ['\\', 't']
  else if c = '\x08' then ['\\', 'b']
  else if c = '\x0c' then ['\\', 'f']
  else if c.toNat < 32 then
    ['\\', 'u', '0', '0', hexChar (c.toNat / 16), hexChar (c.toNat % 16)]
  else [c]

/-- A JSON string literal (both quotes included). -/
def encodeStr (s : String) : List Char :=
  '\x22' :: s.data.flatMap encodeChar ++ ['\x22']

/-- One step of the string-literal body parser, with `rec` resolving the
tail after the consumed characters. -/
def parseStringStep (rec : List Char → Option (List Char × List Char))
    (l : List Char) : Option (List Char × List Char) :=
  match l with
  | [] => none
  | c :: cs =>
    if c = '\x22' then some ([], cs)
    else if c = '\\' then
      match cs with
      | [] => none
      | e :: cs2 =>
        if e = '\x22' then consFst '\x22' (rec cs2)
        else if e = '\\' then consFst '\\' (rec cs2)
        else if e = '/' then consFst '/' (rec cs2)
        else if e = 'n' then consFst '\n' (rec cs2)
        else if e = 'r' then consFst '\x0d' (rec cs2)
        else if e = 't' then consFst '\x09' (rec cs2)
        else if e = 'b' then consFst '\x08' (rec cs2)
        else if e = 'f' then consFst '\x0c' (rec cs2)
        else if e = 'u' then
          match cs2 with
          | h1 :: h2 :: h3 :: h4 :: cs3 =>
            match decodeHex4 h1 h2 h3 h4 with
            | some n => consFst (Char.ofNat n) (rec cs3)
            | none => none
          | _ => none
        else none
    else if c.toNat < 32 then none
    else consFst c (rec cs)

/-- Fuel-indexed string-literal body parser. -/
def parseStringN : Nat → List Char → Option (List Char × List Char)
  | 0, _ => none
  | fuel + 1, l => parseStringStep (parseStringN fuel) l

/-- Parse the body of a JSON string literal (the opening quote already
consumed), returning the decoded characters and the rest of the input. -/
def parseStringAux (l : List Char) : Option (List Char × List Char) :=
  parseStringN (l.length + 1) l

/-- Is `c` JSON insignificant whitespace? -/
def isJsonWs (c : Char) : Bool :=
  c = ' ' || c = '\n' || c = '\x09' || c = '\x0d'

/-- Drop leading JSON whitespace. -/
def skipWs : List Char → List Char
  | [] => []
  | c :: cs => if isJsonWs c then skipWs cs else c :: cs

/-- Split a leading run of decimal digits from the input. -/
def takeDigits : List Char → List Char × List Char
  | [] => ([], [])
  | c :: cs =>
    if '0' ≤ c ∧ c ≤ '9' then
      let p := takeDigits cs
      (c :: p.1, p.2)
    else ([], c :: cs)

/-- Numeric value of a digit string. -/
def digitsToNat (ds : List Char) : Nat :=
  ds.foldl (fun acc c => acc * 10 + (c.toNat - 48)) 0

/-- Parse a JSON number literal (optional sign, integer part, optional
fraction, optional exponent) to its exact rational value. -/
def parseNumber (cs : List Char) : Option (Json × List Char) :=
  let (neg, cs1) : Bool × List Char :=
    match cs with
    | '-' :: rest => (true, rest)
    | _ => (false, cs)
  let (intDs, cs2) := takeDigits cs1
  if intDs = [] then none
  else
    let (fracDs, cs3) : List Char × List Char :=
      match cs2 with
      | '.' :: rest => takeDigits rest
      | _ => ([], cs2)
    if cs2 ≠ [] ∧ cs2.head? = some '.' ∧ fracDs = [] then none
    else
      let (expPart, cs4) : Option Int × List Char :=
        match cs3 with
        | 'e' :: rest | 'E' :: rest =>
          let (esign, rest2) : Int × List Char :=
            match rest with
            | '+' :: r => (1, r)
            | '-' :: r => (-1, r)
            | _ => (1, rest)
          let (expDs, rest3) := takeDigits rest2
          if expDs = [] then (none, cs3)
          else (some (esign * (digitsToNat expDs : Int)), rest3)
        | _ => (some 0, cs3)
      match expPart with
      | none => none
      | some e =>
        let mantissa : Int := (digitsToNat (intDs ++ fracDs) : Int)
        let signed : Int := if neg then -mantissa else mantissa
        let value : Rat := (signed : Rat) * (10 : Rat) ^ (e - (fracDs.length : Int))
        some (Json.num value, cs4)

/-- One step of the array-item run parser: one value via `pv`, then a
comma and the rest via `rec`, or the closing bracket. -/
def parseItemsStep (rec : List Char → Option (List Json × List Char))
    (pv : List Char → Option (Json × List Char)) (cs : List Char) :
    Option (List Json × List Char) :=
  match pv cs with
  | none => none
  | some (j, r) =>
    match skipWs r with
    | ',' :: r2 => (rec r2).map (fun p => (j :: p.1, p.2))
    | ']' :: r2 => some ([j], r2)
    | _ => none

/-- Parse a comma-separated run of array items (first item next, closing
bracket ends the run), given a parser `pv` for one value. -/
def parseItemsF (pv : List Char → Option (Json × List Char)) :
    Nat → List Char → Option (List Json × List Char)
  | 0, _ => none
  | fuel + 1, cs => parseItemsStep (parseItemsF pv fuel) pv cs

/-- One step of the object-member run parser: a key string, a colon, one
value via `pv`, then a comma and the rest via `rec`, or the closing
brace. -/
def parseFieldsStep (rec : List Char → Option (List (String × Json) × List Char))
    (pv : List Char → Option (Json × List Char)) (cs : List Char) :
    Option (List (String × Json) × List Char) :=
  match skipWs cs with
  | '\x22' :: cs2 =>
    match parseStringAux cs2 with
    | none => none
    | some (k, r) =>
      match skipWs r with
      | ':' :: r2 =>
        match pv r2 with
        | none => none
        | some (v, r3) =>
          match skipWs r3 with
          | ',' :: r4 =>
            (rec r4).map (fun p => ((String.mk k, v) :: p.1, p.2))
          | '\x7d' :: r4 => some ([(String.mk k, v)], r4)
          | _ => none
      | _ => none
  | _ => none

/-- Parse a comma-separated run of object members (first key next,
closing brace ends the run), given a parser `pv` for one value. -/
def parseFieldsF (pv : List Char → Option (Json × List Char)) :
    Nat → List Char → Option (List (String × Json) × List Char)
  | 0, _ => none
  | fuel + 1, cs => parseFieldsStep (parseFieldsF pv fuel) pv cs

/-- One step of the JSON value parser, with `pv` resolving nested values. -/
def parseValueStep (pv : List Char → Option (Json × List Char))
    (cs : List Char) : Option (Json × List Char) :=
  match skipWs cs with
  | [] => none
  | c :: cs2 =>
    if c = '\x22' then
      (parseStringAux cs2).map (fun p => (Json.str (String.mk p.1), p.2))
    else if c = '[' then
      match skipWs cs2 with
      | ']' :: cs3 => some (Json.arr [], cs3)
      | cs3 => (parseItemsF pv (cs3.length + 1) cs3).map
          (fun p => (Json.arr p.1, p.2))
    else if c = '\x7b' then
      match skipWs cs2 with
      | '\x7d' :: cs3 => some (Json.obj [], cs3)
      | cs3 => (parseFieldsF pv (cs3.length + 1) cs3).map
          (fun p => (Json.obj p.1, p.2))
    else if c = 't' then
      match cs2 with
      | 'r' :: 'u' :: 'e' :: r => some (Json.bool true, r)
      | _ => none
    else if c = 'f' then
      match cs2 with
      | 'a' :: 'l' :: 's' :: 'e' :: r => some (Json.bool false, r)
      | _ => none
    else if c = 'n' then
      match cs2 with
      | 'u' :: 'l' :: 'l' :: r => some (Json.null, r)
      | _ => none
    else parseNumber (c :: cs2)

/-- Fuel-indexed JSON value parser; the fuel bounds nesting depth. -/
def parseValue : Nat → List Char → Option (Json × List Char)
  | 0, _ => none
  | fuel + 1, cs => parseValueStep (parseValue fuel) cs

/-- `JSON.parse` on a character list: one value, then only whitespace. -/
def parseJsonList (cs : List Char) : Option Json :=
  match parseValue (cs.length + 1) cs with
  | some (j, rest) => if skipWs rest = [] then some j else none
  | none => none

/-- `JSON.parse` on a string: `none` models the thrown `SyntaxError`. -/
def parseJson (s : String) : Option Json :=
  parseJsonList s.data

/-! ### JSON printing of the quotes array
(`JSON.stringify(quotes, null, 2)`, script.js lines 190-203) -/

/-- The JSON value of one quote object. -/
def quoteToJson (q : Quote) : Json :=
  Json.obj [("text", Json.str q.text), ("category", Json.str q.category)]

/-- The pretty-printed characters of one quote object at array depth:
`\x7b`, the two members indented by four spaces, `\x7d` indented by two. -/
def quoteChars (q : Quote) : List Char :=
  '\x7b' :: '\n' :: ' ' :: ' ' :: ' ' :: ' ' ::
    (encodeStr "text" ++ ':' :: ' ' ::
      (encodeStr q.text ++ ',' :: '\n' :: ' ' :: ' ' :: ' ' :: ' ' ::
        (encodeStr "category" ++ ':' :: ' ' ::
          (encodeStr q.category ++ '\n' :: ' ' :: ' ' :: ['\x7d']))))

/-- The array items: each preceded by a newline and two spaces, separated
by commas. -/
def exportItemsAux : List Quote → List Char
  | [] => []
  | [q] => '\n' :: ' ' :: ' ' :: quoteChars q
  | q :: rest => '\n' :: ' ' :: ' ' :: quoteChars q ++ ',' :: exportItemsAux rest

/-- The printed text that follows one array item: either the final
newline and closing bracket, or the comma and the next indented item.
(`exportItemsAux` re-expressed from the viewpoint of the item parser.) -/
def exportTail : List Quote → List Char → List Char
  | [], rest => '\n' :: ']' :: rest
  | q :: c, rest => ',' :: '\n' :: ' ' :: ' ' :: (quoteChars q ++ exportTail c rest)

/-- The characters of `JSON.stringify(quotes, null, 2)`. -/
def exportChars (qs : List Quote) : List Char :=
  match qs with
  | [] => ['[', ']']
  | _ => '[' :: exportItemsAux qs ++ ['\n', ']']

/-- `exportToJsonFile`'s document: the pretty-printed JSON text of the
collection. -/
def exportDocument (qs : List Quote) : String :=
  String.mk (exportChars qs)

/-! ### Import (`importFromJsonFile`, script.js lines 207-234) -/

/-- JavaScript truthiness of a JSON value. -/
def truthy : Json → Bool
  | Json.null => false
  | Json.bool b => b
  | Json.num q => q != 0
  | Json.str s => s ≠ ""
  | Json.arr _ => true
  | Json.obj _ => true

/-- Property access `j[k]` on a parsed JSON value: `none` models
`undefined` (missing key or non-object receiver); later duplicate keys
shadow earlier ones, as in `JSON.parse`. -/
def getField (j : Json) (k : String) : Option Json :=
  match j with
  | Json.obj fields => (fields.reverse.find? (fun f => f.1 == k)).map (fun f => f.2)
  | _ => none

/-- The filter `i && i.text && i.category` applied to an entry. -/
def validEntry (i : Json) : Bool :=
  truthy i &&
    (match getField i "text" with
     | some v => truthy v
     | none => false) &&
    (match getField i "category" with
     | some v => truthy v
     | none => false)

/-- The failures of `importFromJsonFile`'s reader callback: a JSON parse
error, the non-array check, or no surviving entries. -/
inductive ImportError where
  | notJson : ImportError
  | notArray : ImportError
  | noValidQuotes : ImportError
deriving DecidableEq, Repr

/-- `importFromJsonFile`'s document processing: parse, require an array,
keep entries passing `i && i.text && i.category`, fail when none
survive, otherwise return the surviving entries unmodified. -/
def importDocument (raw : String) : Except ImportError (List Json) :=
  match parseJson raw with
  | none => Except.error ImportError.notJson
  | some j =>
    match j with
    | Json.arr items =>
      let filteredImported := items.filter validEntry
      if filteredImported.length = 0 then Except.error ImportError.noValidQuotes
      else Except.ok filteredImported
    | _ => Except.error ImportError.notArray

/-- The mutation performed by `importFromJsonFile`: on success the
surviving entries are pushed onto the collection, on failure (the alert
path) the collection is untouched. -/
def importApply (qs : List Json) (raw : String) : List Json :=
  match importDocument raw with
  | Except.ok items => qs ++ items
  | Except.error _ => qs

/-! ### Startup load (script.js lines 12-16) -/

/-- The built-in seed quotes. -/
def seedQuotes : List Quote :=
  [⟨"The best way to get started is to quit talking and begin doing.",
    "Motivation"⟩,
   ⟨"Don\x27t let yesterday take up too much of today.", "Inspiration"⟩,
   ⟨"Success is not final; failure is not fatal.", "Wisdom"⟩]

/-- The seed collection as a JSON value. -/
def seedJson : Json :=
  Json.arr (seedQuotes.map quoteToJson)

/-- `JSON.parse(localStorage.getItem('quotes')) || seed`: an absent value
reads as `null` (`JSON.parse` coerces it to the text `null`), a falsy
parse result falls back to the seed, and an unparseable value makes
`JSON.parse` throw — modelled by `Except.error`. -/
def load (stored : Option String) : Except Unit Json :=
  let s := match stored with
    | none => "null"
    | some v => v
  match parseJson s with
  | none => Except.error ()
  | some j => Except.ok (if truthy j then j else seedJson)

/-! ### Adding a quote (`addQuote`, script.js lines 81-113) -/

/-- `addQuote` accepts either an object argument or the two form fields. -/
inductive AddInput where
  | obj (q : Quote) : AddInput
  | form (text category : String) : AddInput

/-- JS `String.prototype.trim` at the character level: drop whitespace
from both ends. -/
def trimChars (l : List Char) : List Char :=
  ((l.dropWhile Char.isWhitespace).reverse.dropWhile Char.isWhitespace).reverse

/-- JS `value.trim()` on a string. -/
def jsTrim (s : String) : String :=
  String.mk (trimChars s.data)

/-- `addQuote(newQ)`: an object argument is pushed unconditionally; form
input is trimmed and rejected (alert, no mutation) when either trimmed
field is empty.  The boolean reports whether a quote was appended. -/
def addQuote (qs : List Quote) : AddInput → List Quote × Bool
  | .obj q => (qs ++ [q], true)
  | .form t c =>
    let text := jsTrim t
    let category := jsTrim c
    if text = "" || category = "" then (qs, false)
    else (qs ++ [⟨text, category⟩], true)

/-! ### Server fetch (`fetchQuotesFromServer`, script.js lines 240-250) -/

/-- A remote record from the mock API; only `title` is consumed. -/
structure Post where
  userId : Int
  id : Int
  title : String
  body : String

/-- `fetchQuotesFromServer()` with the transport made explicit: `none`
stands for any transport or decoding failure (caught, yielding `[]`);
a successful response is mapped to quotes with `category: 'Server'`. -/
def fetchQuotesFromServer (response : Option (List Post)) : List Quote :=
  match response with
  | none => []
  | some data => data.map (fun post => { text := post.title, category := "Server" })

/-! ## Helper lemmas -/

theorem contains_texts_iff (r : List Quote) (t : String) :
    (r.map (fun sq => sq.text)).contains t = decide (∃ sq ∈ r, sq.text = t) := by
  simp [eq_comm]

theorem any_texts_iff (r : List Quote) (t : String) :
    (r.any fun sq => sq.text == t) = decide (∃ sq ∈ r, sq.text = t) := by
  induction r with
  | nil => simp
  | cons q r ih =>
    simp only [List.any_cons, ih, List.mem_cons, exists_eq_or_imp]
    rw [Bool.eq_iff_iff]
    simp

/-! ## Claims -/

/-- C1: `mergeServerLocal(remote, local)` returns every remote item
unchanged in remote order, followed by exactly the local items whose text
occurs in no remote item, in local order; and the conflicts are exactly
the local items whose text occurs in some remote item. -/
theorem mergeServerLocal_spec (r l : List Quote) :
    (mergeServerLocal r l).1 =
      r ++ l.filter (fun lq => decide (∀ sq ∈ r, sq.text ≠ lq.text)) ∧
    (mergeServerLocal r l).2 =
      l.filter (fun lq => decide (∃ sq ∈ r, sq.text = lq.text)) := by
  unfold mergeServerLocal
  refine ⟨?_, ?_⟩
  · simp only [List.append_cancel_left_eq]
    apply List.filter_congr
    intro lq _
    rw [contains_texts_iff, ← decide_not]
    apply decide_eq_decide.mpr
    push_neg
    rfl
  · apply List.filter_congr
    intro lq _
    rw [any_texts_iff]

/-- C9: with the remote snapshot held fixed, re-running the merge on the
previously merged collection reproduces the same merged collection. -/
theorem mergeServerLocal_idempotent (r l : List Quote) :
    (mergeServerLocal r (mergeServerLocal r l).1).1 = (mergeServerLocal r l).1 := by
  unfold mergeServerLocal
  simp only [List.filter_append, List.append_cancel_left_eq, List.filter_filter]
  have hr : r.filter
      (fun lq => !((r.map (fun sq => sq.text)).contains lq.text)) = [] := by
    apply List.filter_eq_nil_iff.mpr
    intro q hq
    rw [contains_texts_iff]
    simp
    exact ⟨q, hq, rfl⟩
  rw [hr]
  simp [Bool.and_self]

/-- C8: `fetchQuotesFromServer` maps each consumed record's title to
`text` with category fixed to `"Server"`; any transport or decoding
failure yields the empty sequence, and merging an empty remote snapshot
is a no-op that reports no conflicts. -/
theorem fetchQuotesFromServer_spec :
    fetchQuotesFromServer none = [] ∧
    (∀ posts, fetchQuotesFromServer (some posts) =
      posts.map (fun p => { text := p.title, category := "Server" })) ∧
    (∀ l, mergeServerLocal (fetchQuotesFromServer none) l = (l, [])) := by
  refine ⟨rfl, fun _ => rfl, fun l => ?_⟩
  show mergeServerLocal [] l = (l, [])
  unfold mergeServerLocal
  simp

theorem foldl_firstOccurrences (l : List String) (acc : List String) :
    l.foldl (fun acc x => if acc.contains x then acc else acc ++ [x]) acc =
      acc ++ firstOccurrences (l.filter (fun x => !acc.contains x)) := by
  induction l generalizing acc with
  | nil => simp [firstOccurrences]
  | cons x xs ih =>
    simp only [List.foldl_cons]
    by_cases h : acc.contains x
    · rw [if_pos h, ih, List.filter_cons, if_neg (by rw [h]; simp)]
    · have hb : acc.contains x = false := by revert h; cases acc.contains x <;> simp
      rw [if_neg h, ih, List.filter_cons, if_pos (by rw [hb]; simp)]
      rw [firstOccurrences]
      have hpred : xs.filter (fun y => !(acc ++ [x]).contains y) =
          (xs.filter (fun y => !acc.contains y)).filter (fun y => y != x) := by
        rw [List.filter_filter]
        apply List.filter_congr
        intro y _
        rw [Bool.and_comm]
        simp
        rw [Bool.eq_iff_iff]
        simp
      rw [hpred]
      simp

theorem mem_firstOccurrences (l : List String) (x : String) :
    x ∈ firstOccurrences l ↔ x ∈ l := by
  induction l using firstOccurrences.induct with
  | case1 => simp [firstOccurrences]
  | case2 y ys ih =>
    rw [firstOccurrences]
    simp only [List.mem_cons, ih, List.mem_filter, bne_iff_ne, ne_eq]
    by_cases hxy : x = y
    · simp [hxy]
    · simp [hxy]

theorem nodup_firstOccurrences (l : List String) :
    (firstOccurrences l).Nodup := by
  induction l using firstOccurrences.induct with
  | case1 => simp [firstOccurrences]
  | case2 y ys ih =>
    rw [firstOccurrences]
    refine List.nodup_cons.mpr ⟨fun hmem => ?_, ih⟩
    rw [mem_firstOccurrences, List.mem_filter] at hmem
    simp at hmem

/-- C6: the category list is `"all"` followed by the distinct category
values in order of first occurrence — duplicates collapsed, insertion
order preserved, no alphabetical reordering. -/
theorem populateCategories_spec (qs : List Quote) :
    populateCategories qs =
      "all" :: firstOccurrences (qs.map (fun q => q.category)) ∧
    ((populateCategories qs).tail).Nodup ∧
    (∀ x, x ∈ (populateCategories qs).tail ↔ ∃ q ∈ qs, q.category = x) := by
  have hmain : populateCategories qs =
      "all" :: firstOccurrences (qs.map (fun q => q.category)) := by
    unfold populateCategories
    rw [foldl_firstOccurrences]
    simp
  refine ⟨hmain, ?_, ?_⟩
  · rw [hmain]
    exact nodup_firstOccurrences _
  · intro x
    rw [hmain]
    simp only [List.tail_cons, mem_firstOccurrences, List.mem_map]

theorem pickQuote_mem (qs : List Quote) (f : String) (rand : Nat) (q : Quote)
    (hq : pickQuote qs f rand = some q) : q ∈ candidateQuotes qs f := by
  unfold pickQuote at hq
  by_cases hlen : (candidateQuotes qs f).length = 0
  · rw [dif_pos hlen] at hq
    exact Option.noConfusion hq
  · rw [dif_neg hlen] at hq
    have hmem : (candidateQuotes qs f).get
        ⟨rand % (candidateQuotes qs f).length,
          Nat.mod_lt _ (Nat.pos_of_ne_zero hlen)⟩ ∈ candidateQuotes qs f :=
      (candidateQuotes qs f).get_mem _ _
    rwa [Option.some_inj.mp hq] at hmem

/-- C7: `pickQuote` returns `none` exactly when the candidate subset is
empty (a stale filter included), otherwise an element of that subset; for
a non-`"all"` filter any returned quote carries that category. -/
theorem pickQuote_spec (qs : List Quote) (f : String) (rand : Nat) :
    (pickQuote qs f rand = none ↔ candidateQuotes qs f = []) ∧
    (∀ q, pickQuote qs f rand = some q → q ∈ candidateQuotes qs f) ∧
    (∀ q, pickQuote qs f rand = some q → f ≠ "all" → q.category = f) := by
  refine ⟨⟨fun h => ?_, fun h => ?_⟩, fun q hq => pickQuote_mem qs f rand q hq,
    fun q hq hne => ?_⟩
  · by_contra hcne
    have hlen : (candidateQuotes qs f).length ≠ 0 :=
      fun h0 => hcne (List.length_eq_zero.mp h0)
    unfold pickQuote at h
    rw [dif_neg hlen] at h
    exact Option.noConfusion h
  · unfold pickQuote
    rw [dif_pos (by rw [h]; rfl)]
  · have hq' := pickQuote_mem qs f rand q hq
    unfold candidateQuotes at hq'
    rw [if_neg hne] at hq'
    have := (List.mem_filter.mp hq').2
    exact eq_of_beq this


/-- C7 witness. -/
theorem pickQuote_spec_witness :
    Quote.mk "a" "X" ∈ candidateQuotes [⟨"a", "X"⟩] "X" ∧
    (Quote.mk "a" "X").category = "X" :=
  ⟨(pickQuote_spec [⟨"a", "X"⟩] "X" 0).2.1 ⟨"a", "X"⟩ rfl,
   (pickQuote_spec [⟨"a", "X"⟩] "X" 0).2.2 ⟨"a", "X"⟩ rfl (by decide)⟩

/-- C5 counterexample: a quote object with empty `text` and empty
`category` passed as an argument is appended anyway — the trimming
validation never runs on the object path, so the operation is not
rejected and the collection is mutated. -/
theorem addQuote_obj_counterexample :
    addQuote [] (AddInput.obj ⟨"", ""⟩) = ([⟨"", ""⟩], true) :=
  rfl

/-- C5 (amended): the whitespace-trimming validation applies only when
text and category come from the form inputs — there a blank field rejects
the add and leaves the collection unchanged, otherwise the trimmed quote
is appended; a quote passed as an object is appended unconditionally. -/
theorem addQuote_spec :
    (∀ qs q, addQuote qs (AddInput.obj q) = (qs ++ [q], true)) ∧
    (∀ qs t c, (jsTrim t = "" ∨ jsTrim c = "") →
      addQuote qs (AddInput.form t c) = (qs, false)) ∧
    (∀ qs t c, jsTrim t ≠ "" → jsTrim c ≠ "" →
      addQuote qs (AddInput.form t c) = (qs ++ [⟨jsTrim t, jsTrim c⟩], true)) := by
  refine ⟨fun qs q => rfl, fun qs t c h => ?_, fun qs t c ht hc => ?_⟩
  · rcases h with h | h <;> simp [addQuote, h]
  · simp [addQuote, ht, hc]

/-- C5 witness. -/
theorem addQuote_spec_witness :
    addQuote [] (AddInput.form "  " "x") = ([], false) ∧
    addQuote [] (AddInput.form " a " "x") = ([⟨"a", "x"⟩], true) :=
  ⟨addQuote_spec.2.1 [] "  " "x" (Or.inl (by decide)),
   addQuote_spec.2.2 [] " a " "x" (by decide) (by decide)⟩

theorem mem_escapeHtmlChar (x c : Char) (hc : c ∈ escapeHtmlChar x) :
    c ≠ '<' ∧ c ≠ '>' ∧ c ≠ '\x22' ∧ c ≠ '\x27' := by
  unfold escapeHtmlChar at hc
  split_ifs at hc with h1 h2 h3 h4 h5
  · simp only [List.mem_cons, List.not_mem_nil, or_false] at hc
    rcases hc with rfl | rfl | rfl | rfl | rfl <;> decide
  · simp only [List.mem_cons, List.not_mem_nil, or_false] at hc
    rcases hc with rfl | rfl | rfl | rfl <;> decide
  · simp only [List.mem_cons, List.not_mem_nil, or_false] at hc
    rcases hc with rfl | rfl | rfl | rfl <;> decide
  · simp only [List.mem_cons, List.not_mem_nil, or_false] at hc
    rcases hc with rfl | rfl | rfl | rfl | rfl | rfl <;> decide
  · simp only [List.mem_cons, List.not_mem_nil, or_false] at hc
    rcases hc with rfl | rfl | rfl | rfl | rfl <;> decide
  · simp only [List.mem_cons, List.not_mem_nil, or_false] at hc
    subst hc
    exact ⟨h2, h3, h4, h5⟩

theorem escapeHtmlChar_length (c : Char) : 1 ≤ (escapeHtmlChar c).length := by
  unfold escapeHtmlChar
  split_ifs <;> simp

theorem length_le_flatMap_escape (l : List Char) :
    l.length ≤ (l.flatMap escapeHtmlChar).length := by
  induction l with
  | nil => simp
  | cons c rest ih =>
    rw [List.flatMap_cons, List.length_append, List.length_cons]
    have := escapeHtmlChar_length c
    omega

theorem unescapeN_escape (l : List Char) : ∀ f, l.length + 1 ≤ f →
    unescapeN f (l.flatMap escapeHtmlChar) = some l := by
  induction l with
  | nil =>
    intro f hf
    obtain ⟨g, rfl⟩ : ∃ g, f = g + 1 := ⟨f - 1, by omega⟩
    rfl
  | cons c rest ih =>
    intro f hf
    obtain ⟨g, rfl⟩ : ∃ g, f = g + 1 := ⟨f - 1, by omega⟩
    rw [List.flatMap_cons, unescapeN]
    have hih := ih g (by simp only [List.length_cons] at hf; omega)
    by_cases h1 : c = '&'
    · subst h1
      rw [show escapeHtmlChar '&' = ['&', 'a', 'm', 'p', ';'] from rfl]
      simp [unescapeStep, entityHead, expectChars, hih]
    · by_cases h2 : c = '<'
      · subst h2
        rw [show escapeHtmlChar '<' = ['&', 'l', 't', ';'] from rfl]
        simp [unescapeStep, entityHead, expectChars, hih]
      · by_cases h3 : c = '>'
        · subst h3
          rw [show escapeHtmlChar '>' = ['&', 'g', 't', ';'] from rfl]
          simp [unescapeStep, entityHead, expectChars, hih]
        · by_cases h4 : c = '\x22'
          · subst h4
            rw [show escapeHtmlChar '\x22' = ['&', 'q', 'u', 'o', 't', ';']
              from rfl]
            simp [unescapeStep, entityHead, expectChars, hih]
          · by_cases h5 : c = '\x27'
            · subst h5
              rw [show escapeHtmlChar '\x27' = ['&', '#', '3', '9', ';']
                from rfl]
              simp [unescapeStep, entityHead, expectChars, hih]
            · have he : escapeHtmlChar c = [c] := by
                unfold escapeHtmlChar
                rw [if_neg h1, if_neg h2, if_neg h3, if_neg h4, if_neg h5]
              rw [he]
              show unescapeStep (unescapeN g)
                (c :: rest.flatMap escapeHtmlChar) = _
              simp [unescapeStep, h1, hih]

theorem unescape_escape (l : List Char) :
    unescapeHtml (l.flatMap escapeHtmlChar) = some l :=
  unescapeN_escape l _ (by have := length_le_flatMap_escape l; omega)

theorem flatMap_escape_id (l : List Char)
    (h : ∀ c ∈ l, escapeHtmlChar c = [c]) :
    l.flatMap escapeHtmlChar = l := by
  induction l with
  | nil => rfl
  | cons c rest ih =>
    rw [List.flatMap_cons, h c (by simp),
      ih (fun d hd => h d (List.mem_cons_of_mem _ hd))]
    rfl

/-- C10: `escapeHtml` emits no literal `<`, `>`, `"` or `'`; each of
the five specials maps to its fixed entity, any string free of specials
passes through unchanged, and the escaping is injective. -/
theorem escapeHtml_spec :
    (∀ s : String, ∀ c ∈ (escapeHtml s).data,
      c ≠ '<' ∧ c ≠ '>' ∧ c ≠ '\x22' ∧ c ≠ '\x27') ∧
    (∀ s t : String, escapeHtml s = escapeHtml t → s = t) ∧
    escapeHtml "&" = "&amp;" ∧ escapeHtml "<" = "&lt;" ∧
    escapeHtml ">" = "&gt;" ∧ escapeHtml "\x22" = "&quot;" ∧
    escapeHtml "\x27" = "&#39;" ∧
    (∀ s : String,
      (∀ c ∈ s.data, c ≠ '&' ∧ c ≠ '<' ∧ c ≠ '>' ∧ c ≠ '\x22' ∧ c ≠ '\x27') →
      escapeHtml s = s) := by
  refine ⟨fun s c hc => ?_, fun s t h => ?_, rfl, rfl, rfl, rfl, rfl,
    fun s hs => ?_⟩
  · unfold escapeHtml at hc
    obtain ⟨x, _, hcx⟩ := List.mem_flatMap.mp hc
    exact mem_escapeHtmlChar x c hcx
  · have hdata : s.data.flatMap escapeHtmlChar = t.data.flatMap escapeHtmlChar :=
      congrArg String.data h
    have hsome := congrArg unescapeHtml hdata
    rw [unescape_escape, unescape_escape] at hsome
    have hd : s.data = t.data := Option.some_inj.mp hsome
    have hmk : String.mk s.data = String.mk t.data := congrArg String.mk hd
    simpa using hmk
  · have hall : ∀ c ∈ s.data, escapeHtmlChar c = [c] := by
      intro c hc
      obtain ⟨n1, n2, n3, n4, n5⟩ := hs c hc
      unfold escapeHtmlChar
      rw [if_neg n1, if_neg n2, if_neg n3, if_neg n4, if_neg n5]
    unfold escapeHtml
    rw [flatMap_escape_id s.data hall]

/-- C10 witness. -/
theorem escapeHtml_spec_witness :
    escapeHtml "ab" = "ab" ∧ ("a" : String) = "a" :=
  ⟨escapeHtml_spec.2.2.2.2.2.2.2 "ab" (by decide),
   escapeHtml_spec.2.1 "a" "a" rfl⟩

/-- C2: `importDocument` fails exactly when the text does not parse, the
parsed value is not an array, or nothing survives the
`i && i.text && i.category` filter — mutating nothing — and otherwise
appends every surviving entry unmodified (no trimming, no
deduplication); including the spec's three concrete vectors. -/
theorem importDocument_spec :
    (∀ raw, importDocument raw = Except.error ImportError.notJson ↔
      parseJson raw = none) ∧
    (∀ raw items, parseJson raw = some (Json.arr items) →
      importDocument raw =
        if (items.filter validEntry).length = 0 then
          Except.error ImportError.noValidQuotes
        else Except.ok (items.filter validEntry)) ∧
    (∀ raw j, parseJson raw = some j → (∀ items, j ≠ Json.arr items) →
      importDocument raw = Except.error ImportError.notArray) ∧
    (∀ old raw e, importDocument raw = Except.error e →
      importApply old raw = old) ∧
    (∀ old raw items, importDocument raw = Except.ok items →
      importApply old raw = old ++ items) ∧
    importDocument "not json" = Except.error ImportError.notJson ∧
    importDocument "[]" = Except.error ImportError.noValidQuotes ∧
    importDocument "[\x7b\"text\":\"a\"\x7d]" =
      Except.error ImportError.noValidQuotes := by
  refine ⟨fun raw => ?_, fun raw items h => ?_, fun raw j h hna => ?_,
    fun old raw e h => ?_, fun old raw items h => ?_, rfl, rfl, rfl⟩
  · cases h : parseJson raw with
    | none => simp [importDocument, h]
    | some j =>
      cases j <;> simp [importDocument, h]
      split_ifs <;> simp
  · simp [importDocument, h]
  · cases j <;> simp [importDocument, h]
    exact absurd rfl (hna _)
  · simp [importApply, h]
  · simp [importApply, h]

/-- C2 witness. -/
theorem importDocument_spec_witness :
    importApply [] "[\x7b\"text\":\"t\",\"category\":\"c\"\x7d]" =
      [] ++ [Json.obj [("text", Json.str "t"), ("category", Json.str "c")]] :=
  importDocument_spec.2.2.2.2.1 [] "[\x7b\"text\":\"t\",\"category\":\"c\"\x7d]"
    [Json.obj [("text", Json.str "t"), ("category", Json.str "c")]] rfl

/-- C4 counterexample: a persisted value that is not parseable JSON makes
the startup read raise (the `JSON.parse` call on line 12 is not wrapped
in any try/catch), instead of being treated like an absent value. -/
theorem load_corrupted_counterexample :
    load (some "corrupted") = Except.error () :=
  rfl

/-- C4 (amended): an absent value and any value parsing to a falsy JSON
value yield the seed collection, a value parsing to a truthy JSON value
yields that value, but a value that is not parseable JSON propagates the
parse error to the caller rather than falling back to the seed. -/
theorem load_spec :
    load none = Except.ok seedJson ∧
    (∀ s, parseJson s = none → load (some s) = Except.error ()) ∧
    (∀ s j, parseJson s = some j → truthy j = true →
      load (some s) = Except.ok j) ∧
    (∀ s j, parseJson s = some j → truthy j = false →
      load (some s) = Except.ok seedJson) := by
  refine ⟨rfl, fun s h => ?_, fun s j h ht => ?_, fun s j h ht => ?_⟩
  · simp [load, h]
  · simp [load, h, ht]
  · simp [load, h, ht]

/-- C4 witness. -/
theorem load_spec_witness :
    load (some "nonsense") = Except.error () ∧
    load (some "true") = Except.ok (Json.bool true) :=
  ⟨load_spec.2.1 "nonsense" rfl,
   load_spec.2.2.1 "true" (Json.bool true) rfl rfl⟩

/-! ## Print/parse round trip for the exported document -/

theorem skipWs_cons_ws (c : Char) (l : List Char) (h : isJsonWs c = true) :
    skipWs (c :: l) = skipWs l := by
  rw [skipWs, if_pos h]

theorem skipWs_cons_nonws (c : Char) (l : List Char) (h : isJsonWs c = false) :
    skipWs (c :: l) = c :: l := by
  rw [skipWs, if_neg (by rw [h]; exact Bool.false_ne_true)]

theorem encodeChar_length (c : Char) : 1 ≤ (encodeChar c).length := by
  unfold encodeChar
  split_ifs <;> simp

theorem length_le_flatMap_encode (l : List Char) :
    l.length ≤ (l.flatMap encodeChar).length := by
  induction l with
  | nil => simp
  | cons c rest ih =>
    rw [List.flatMap_cons, List.length_append, List.length_cons]
    have := encodeChar_length c
    omega

theorem hexRound (m : Nat) (h : m < 16) : decodeHex (hexChar m) = some m := by
  interval_cases m <;> decide

theorem parseStringN_round (l : List Char) : ∀ f rest, l.length + 1 ≤ f →
    parseStringN f (l.flatMap encodeChar ++ '\x22' :: rest) = some (l, rest) := by
  induction l with
  | nil =>
    intro f rest hf
    obtain ⟨g, rfl⟩ : ∃ g, f = g + 1 := ⟨f - 1, by omega⟩
    rw [List.flatMap_nil, List.nil_append, parseStringN]
    simp [parseStringStep]
  | cons c tl ih =>
    intro f rest hf
    obtain ⟨g, rfl⟩ : ∃ g, f = g + 1 := ⟨f - 1, by omega⟩
    have hg : tl.length + 1 ≤ g := by
      simp only [List.length_cons] at hf
      omega
    have ihg := ih g rest hg
    rw [List.flatMap_cons, List.append_assoc, parseStringN]
    by_cases h1 : c = '\x22'
    · subst h1
      rw [show encodeChar '\x22' = ['\\', '\x22'] from rfl]
      simp [parseStringStep, consFst, ihg]
    · by_cases h2 : c = '\\'
      · subst h2
        rw [show encodeChar '\\' = ['\\', '\\'] from rfl]
        simp [parseStringStep, consFst, ihg]
      · by_cases h3 : c = '\n'
        · subst h3
          rw [show encodeChar '\n' = ['\\', 'n'] from rfl]
          simp [parseStringStep, consFst, ihg]
        · by_cases h4 : c = '\x0d'
          · subst h4
            rw [show encodeChar '\x0d' = ['\\', 'r'] from rfl]
            simp [parseStringStep, consFst, ihg]
          · by_cases h5 : c = '\x09'
            · subst h5
              rw [show encodeChar '\x09' = ['\\', 't'] from rfl]
              simp [parseStringStep, consFst, ihg]
            · by_cases h6 : c = '\x08'
              · subst h6
                rw [show encodeChar '\x08' = ['\\', 'b'] from rfl]
                simp [parseStringStep, consFst, ihg]
              · by_cases h7 : c = '\x0c'
                · subst h7
                  rw [show encodeChar '\x0c' = ['\\', 'f'] from rfl]
                  simp [parseStringStep, consFst, ihg]
                · by_cases h8 : c.toNat < 32
                  · have he : encodeChar c = ['\\', 'u', '0', '0',
                        hexChar (c.toNat / 16), hexChar (c.toNat % 16)] := by
                      unfold encodeChar
                      rw [if_neg h1, if_neg h2, if_neg h3, if_neg h4,
                        if_neg h5, if_neg h6, if_neg h7, if_pos h8]
                    rw [he]
                    have hd3 := hexRound (c.toNat / 16) (by omega)
                    have hd4 := hexRound (c.toNat % 16) (by omega)
                    simp only [List.cons_append, List.nil_append]
                    rw [parseStringStep]
                    simp [decodeHex4, show decodeHex '0' = some 0 from rfl,
                      hd3, hd4, consFst, ihg]
                    rw [show c.toNat / 16 * 16 + c.toNat % 16 = c.toNat
                      from by omega]
                    exact Char.ofNat_toNat c
                  · have he : encodeChar c = [c] := by
                      unfold encodeChar
                      rw [if_neg h1, if_neg h2, if_neg h3, if_neg h4,
                        if_neg h5, if_neg h6, if_neg h7, if_neg h8]
                    rw [he]
                    simp only [List.cons_append, List.nil_append]
                    rw [parseStringStep.eq_def]
                    simp only [if_neg h1, if_neg h2, if_neg h8]
                    rw [ihg]
                    rfl

theorem parseStringAux_round (l : List Char) (rest : List Char) :
    parseStringAux (l.flatMap encodeChar ++ '\x22' :: rest) = some (l, rest) := by
  unfold parseStringAux
  apply parseStringN_round
  have := length_le_flatMap_encode l
  simp only [List.length_append, List.length_cons]
  omega

theorem parseValue_strVal (v : String) (f : Nat) (rest : List Char) :
    parseValue (f + 1) (' ' :: (encodeStr v ++ rest)) = some (Json.str v, rest) := by
  have hshape : encodeStr v ++ rest =
      '\x22' :: (v.data.flatMap encodeChar ++ '\x22' :: rest) := by
    simp [encodeStr]
  have hcs : skipWs (' ' :: (encodeStr v ++ rest)) =
      '\x22' :: (v.data.flatMap encodeChar ++ '\x22' :: rest) := by
    rw [skipWs_cons_ws _ _ (by decide), hshape]
    exact skipWs_cons_nonws _ _ (by decide)
  rw [parseValue, parseValueStep.eq_def, hcs]
  simp [parseStringAux_round v.data rest, show String.mk v.data = v from rfl]

theorem skipWs_nl (X : List Char) : skipWs ('\n' :: X) = skipWs X :=
  skipWs_cons_ws _ _ (by decide)

theorem skipWs_sp (X : List Char) : skipWs (' ' :: X) = skipWs X :=
  skipWs_cons_ws _ _ (by decide)


theorem parseStringAux_text (X : List Char) :
    parseStringAux ('t' :: 'e' :: 'x' :: 't' :: '\x22' :: X) =
      some (['t', 'e', 'x', 't'], X) := by
  have h := parseStringAux_round ['t', 'e', 'x', 't'] X
  rw [show ['t', 'e', 'x', 't'].flatMap encodeChar ++ '\x22' :: X =
    't' :: 'e' :: 'x' :: 't' :: '\x22' :: X from rfl] at h
  exact h

theorem parseStringAux_category (X : List Char) :
    parseStringAux ('c' :: 'a' :: 't' :: 'e' :: 'g' :: 'o' :: 'r' :: 'y' ::
      '\x22' :: X) = some (['c', 'a', 't', 'e', 'g', 'o', 'r', 'y'], X) := by
  have h := parseStringAux_round ['c', 'a', 't', 'e', 'g', 'o', 'r', 'y'] X
  rw [show ['c', 'a', 't', 'e', 'g', 'o', 'r', 'y'].flatMap encodeChar ++
    '\x22' :: X = 'c' :: 'a' :: 't' :: 'e' :: 'g' :: 'o' :: 'r' :: 'y' ::
    '\x22' :: X from rfl] at h
  exact h

theorem parseFields_quote (pv : List Char → Option (Json × List Char))
    (hpv : ∀ v rest, pv (' ' :: (encodeStr v ++ rest)) = some (Json.str v, rest))
    (q : Quote) : ∀ (f : Nat) (cs rest : List Char), 2 ≤ f →
    cs = '\x22' :: 't' :: 'e' :: 'x' :: 't' :: '\x22' :: ':' :: ' ' ::
      (encodeStr q.text ++ ',' :: '\n' :: ' ' :: ' ' :: ' ' :: ' ' ::
        '\x22' :: 'c' :: 'a' :: 't' :: 'e' :: 'g' :: 'o' :: 'r' :: 'y' ::
        '\x22' :: ':' :: ' ' ::
        (encodeStr q.category ++ '\n' :: ' ' :: ' ' :: '\x7d' :: rest)) →
    parseFieldsF pv f cs =
      some ([("text", Json.str q.text), ("category", Json.str q.category)],
        rest) := by
  intro f cs rest hf hcs
  obtain ⟨g, rfl⟩ : ∃ g, f = g + 1 + 1 := ⟨f - 2, by omega⟩
  subst hcs
  have hnws : ∀ (c : Char) (X : List Char), isJsonWs c = false →
      skipWs (c :: X) = c :: X := fun c X h => skipWs_cons_nonws c X h
  simp only [parseFieldsF, parseFieldsStep, hnws '\x22' _ (by decide),
    hnws ':' _ (by decide), hnws ',' _ (by decide),
    hnws '\x7d' _ (by decide), skipWs_nl, skipWs_sp,
    parseStringAux_text, parseStringAux_category,
    hpv q.text, hpv q.category,
    show String.mk ['t', 'e', 'x', 't'] = "text" from rfl,
    show String.mk ['c', 'a', 't', 'e', 'g', 'o', 'r', 'y'] = "category"
      from rfl]
  rfl

theorem quoteChars_append (q : Quote) (X : List Char) :
    quoteChars q ++ X =
      '\x7b' :: '\n' :: ' ' :: ' ' :: ' ' :: ' ' ::
        '\x22' :: 't' :: 'e' :: 'x' :: 't' :: '\x22' :: ':' :: ' ' ::
        (encodeStr q.text ++ ',' :: '\n' :: ' ' :: ' ' :: ' ' :: ' ' ::
          '\x22' :: 'c' :: 'a' :: 't' :: 'e' :: 'g' :: 'o' :: 'r' :: 'y' ::
          '\x22' :: ':' :: ' ' ::
          (encodeStr q.category ++ '\n' :: ' ' :: ' ' :: '\x7d' :: X)) := by
  show ('\x7b' :: '\n' :: ' ' :: ' ' :: ' ' :: ' ' ::
    (encodeStr "text" ++ ':' :: ' ' ::
      (encodeStr q.text ++ ',' :: '\n' :: ' ' :: ' ' :: ' ' :: ' ' ::
        (encodeStr "category" ++ ':' :: ' ' ::
          (encodeStr q.category ++ '\n' :: ' ' :: ' ' :: ['\x7d']))))) ++ X = _
  rw [show encodeStr "text" = ['\x22', 't', 'e', 'x', 't', '\x22'] from rfl,
    show encodeStr "category" =
      ['\x22', 'c', 'a', 't', 'e', 'g', 'o', 'r', 'y', '\x22'] from rfl]
  simp

theorem parseValue_quote : ∀ (f : Nat) (cs rest : List Char) (q : Quote),
    2 ≤ f → skipWs cs = quoteChars q ++ rest →
    parseValue f cs = some (quoteToJson q, rest) := by
  intro f cs rest q hf h
  obtain ⟨g, rfl⟩ : ∃ g, f = g + 1 + 1 := ⟨f - 2, by omega⟩
  have hpv : ∀ v vrest, parseValue (g + 1) (' ' :: (encodeStr v ++ vrest)) =
      some (Json.str v, vrest) := fun v vrest => parseValue_strVal v g vrest
  rw [show g + 1 + 1 = (g + 1) + 1 from rfl, parseValue,
    parseValueStep.eq_def, h, quoteChars_append]
  have hnws : ∀ (c : Char) (X : List Char), isJsonWs c = false →
      skipWs (c :: X) = c :: X := fun c X h => skipWs_cons_nonws c X h
  simp only [skipWs_nl, skipWs_sp, hnws '\x22' _ (by decide)]
  simp only [if_true]
  show Option.map (fun p => (Json.obj p.1, p.2))
    (parseFieldsF (parseValue (g + 1))
      (('\x22' :: 't' :: 'e' :: 'x' :: 't' :: '\x22' :: ':' :: ' ' ::
        (encodeStr q.text ++ ',' :: '\n' :: ' ' :: ' ' :: ' ' :: ' ' ::
          '\x22' :: 'c' :: 'a' :: 't' :: 'e' :: 'g' :: 'o' :: 'r' :: 'y' ::
          '\x22' :: ':' :: ' ' ::
          (encodeStr q.category ++
            '\n' :: ' ' :: ' ' :: '\x7d' :: rest))).length + 1)
      ('\x22' :: 't' :: 'e' :: 'x' :: 't' :: '\x22' :: ':' :: ' ' ::
        (encodeStr q.text ++ ',' :: '\n' :: ' ' :: ' ' :: ' ' :: ' ' ::
          '\x22' :: 'c' :: 'a' :: 't' :: 'e' :: 'g' :: 'o' :: 'r' :: 'y' ::
          '\x22' :: ':' :: ' ' ::
          (encodeStr q.category ++
            '\n' :: ' ' :: ' ' :: '\x7d' :: rest)))) =
    some (quoteToJson q, rest)
  rw [parseFields_quote (parseValue (g + 1)) hpv q _ _ rest (by simp) rfl]
  rfl

theorem skipWs_quote_head (q : Quote) (X : List Char) :
    skipWs (quoteChars q ++ X) = quoteChars q ++ X := by
  rw [quoteChars_append]
  exact skipWs_cons_nonws _ _ (by decide)

theorem exportItemsAux_decomp (c : List Quote) : ∀ (q : Quote) (X : List Char),
    exportItemsAux (q :: c) ++ '\n' :: ']' :: X =
      '\n' :: ' ' :: ' ' :: (quoteChars q ++ exportTail c X) := by
  induction c with
  | nil =>
    intro q X
    rw [show exportItemsAux [q] = '\n' :: ' ' :: ' ' :: quoteChars q from rfl,
      show exportTail [] X = '\n' :: ']' :: X from rfl]
    simp
  | cons q2 c2 ih =>
    intro q X
    rw [show exportItemsAux (q :: q2 :: c2) =
      '\n' :: ' ' :: ' ' :: quoteChars q ++ ',' :: exportItemsAux (q2 :: c2)
      from rfl]
    rw [show exportTail (q2 :: c2) X =
      ',' :: '\n' :: ' ' :: ' ' :: (quoteChars q2 ++ exportTail c2 X) from rfl]
    rw [← ih q2 X]
    simp

theorem exportTail_length (c : List Quote) : ∀ rest : List Char,
    c.length ≤ (exportTail c rest).length := by
  induction c with
  | nil => intro rest; simp [exportTail]
  | cons q c ih =>
    intro rest
    have := ih rest
    simp only [exportTail, List.length_cons, List.length_append]
    omega

theorem parseItems_quotes (pv : List Char → Option (Json × List Char))
    (hpv : ∀ cs rest q, skipWs cs = quoteChars q ++ rest →
      pv cs = some (quoteToJson q, rest)) :
    ∀ (c : List Quote) (q : Quote) (f : Nat) (rest cs : List Char),
      c.length + 1 ≤ f →
      skipWs cs = quoteChars q ++ exportTail c rest →
      parseItemsF pv f cs =
        some (quoteToJson q :: c.map quoteToJson, rest) := by
  intro c
  induction c with
  | nil =>
    intro q f rest cs hf hcs
    obtain ⟨g, rfl⟩ : ∃ g, f = g + 1 := ⟨f - 1, by omega⟩
    have hnws : ∀ (c : Char) (X : List Char), isJsonWs c = false →
        skipWs (c :: X) = c :: X := fun c X h => skipWs_cons_nonws c X h
    rw [parseItemsF]
    simp only [parseItemsStep, hpv cs _ q hcs, exportTail, skipWs_nl,
      hnws ']' _ (by decide)]
    rfl
  | cons q2 c2 ih =>
    intro q f rest cs hf hcs
    obtain ⟨g, rfl⟩ : ∃ g, f = g + 1 := ⟨f - 1, by omega⟩
    have hnws : ∀ (c : Char) (X : List Char), isJsonWs c = false →
        skipWs (c :: X) = c :: X := fun c X h => skipWs_cons_nonws c X h
    have hih := ih q2 g rest
      ('\n' :: ' ' :: ' ' :: (quoteChars q2 ++ exportTail c2 rest))
      (by simp only [List.length_cons] at hf; omega)
      (by rw [skipWs_nl, skipWs_sp, skipWs_sp, skipWs_quote_head])
    rw [parseItemsF]
    simp only [parseItemsStep, hpv cs _ q hcs, exportTail,
      hnws ',' _ (by decide), hih]
    rfl

set_option maxHeartbeats 1600000 in
theorem parseJson_export (q : Quote) (c2 : List Quote) :
    parseJson (exportDocument (q :: c2)) =
      some (Json.arr ((q :: c2).map quoteToJson)) := by
  have hlen2 : 2 ≤ (exportChars (q :: c2)).length := by
    rw [show exportChars (q :: c2) =
      '[' :: (exportItemsAux (q :: c2) ++ ['\n', ']']) from rfl]
    simp
  have hpv2 : ∀ cs rest qq, skipWs cs = quoteChars qq ++ rest →
      parseValue ('[' :: '\n' :: ' ' :: ' ' ::
        (quoteChars q ++ exportTail c2 [])).length cs =
        some (quoteToJson qq, rest) :=
    fun cs rest qq h =>
      parseValue_quote _ cs rest qq (by simp) h
  have hnws : ∀ (c : Char) (X : List Char), isJsonWs c = false →
      skipWs (c :: X) = c :: X := fun c X h => skipWs_cons_nonws c X h
  have hskip : skipWs (quoteChars q ++ exportTail c2 []) =
      quoteChars q ++ exportTail c2 [] := skipWs_quote_head q _
  have hflen : c2.length + 1 ≤ (quoteChars q ++ exportTail c2 []).length + 1 := by
    have := exportTail_length c2 []
    simp only [List.length_append]
    omega
  have harr : parseValue ((exportChars (q :: c2)).length + 1)
      (exportChars (q :: c2)) =
      some (Json.arr ((q :: c2).map quoteToJson), []) := by
    rw [parseValue, parseValueStep.eq_def]
    rw [show exportChars (q :: c2) =
      '[' :: (exportItemsAux (q :: c2) ++ ['\n', ']']) from rfl]
    rw [hnws '[' _ (by decide)]
    rw [show (exportItemsAux (q :: c2) ++ ['\n', ']'] : List Char) =
      exportItemsAux (q :: c2) ++ '\n' :: ']' :: [] from rfl]
    rw [exportItemsAux_decomp c2 q []]
    show (parseItemsF (parseValue ('[' :: '\n' :: ' ' :: ' ' ::
          (quoteChars q ++ exportTail c2 [])).length)
        ((quoteChars q ++ exportTail c2 []).length + 1)
        (quoteChars q ++ exportTail c2 [])).map
      (fun p => (Json.arr p.1, p.2)) =
      some (Json.arr ((q :: c2).map quoteToJson), [])
    rw [parseItems_quotes _ hpv2 c2 q _ [] _ hflen hskip]
    rfl
  show parseJsonList (exportChars (q :: c2)) = _
  unfold parseJsonList
  rw [harr]
  rfl

theorem validEntry_quoteToJson (q : Quote) (ht : q.text ≠ "")
    (hc : q.category ≠ "") : validEntry (quoteToJson q) = true := by
  simp [validEntry, quoteToJson, truthy, getField, List.find?, ht, hc]

/-- C3 counterexample: the empty collection consists (vacuously) of valid
quotes, yet its export is `[]`, whose import fails with the
no-valid-quotes validation error instead of reproducing the collection. -/
theorem exportImport_empty_counterexample :
    importDocument (exportDocument []) =
      Except.error ImportError.noValidQuotes :=
  rfl

/-- C3 (amended): for every NON-EMPTY collection whose quotes all have
non-empty text and category, importing the export into an empty
collection reproduces the collection exactly (element for element, via
the injective JSON embedding of quotes); for the empty collection
the import of the export fails with the validation error instead. -/
theorem exportImport_roundTrip (c : List Quote) (hne : c ≠ [])
    (hval : ∀ q ∈ c, q.text ≠ "" ∧ q.category ≠ "") :
    importDocument (exportDocument c) = Except.ok (c.map quoteToJson) ∧
    importApply [] (exportDocument c) = c.map quoteToJson ∧
    Function.Injective quoteToJson := by
  obtain ⟨q, c2, rfl⟩ : ∃ q c2, c = q :: c2 := by
    cases c with
    | nil => exact absurd rfl hne
    | cons q c2 => exact ⟨q, c2, rfl⟩
  have hfilter : ((q :: c2).map quoteToJson).filter validEntry =
      (q :: c2).map quoteToJson := by
    apply List.filter_eq_self.mpr
    intro j hj
    obtain ⟨qq, hqq, rfl⟩ := List.mem_map.mp hj
    obtain ⟨ht, hc⟩ := hval qq hqq
    exact validEntry_quoteToJson qq ht hc
  have himp : importDocument (exportDocument (q :: c2)) =
      Except.ok ((q :: c2).map quoteToJson) := by
    unfold importDocument
    rw [parseJson_export]
    simp only []
    have hvq := validEntry_quoteToJson q (hval q (by simp)).1
      (hval q (by simp)).2
    simp only [List.map_cons] at hfilter
    simp [hfilter, hvq]
  refine ⟨himp, ?_, ?_⟩
  · unfold importApply
    rw [himp]
    rfl
  · intro a b h
    cases a
    cases b
    simpa [quoteToJson, Quote.mk.injEq] using h

/-- C3 witness. -/
theorem exportImport_roundTrip_witness :
    importDocument (exportDocument [⟨"a", "b"⟩]) =
      Except.ok ([Quote.mk "a" "b"].map quoteToJson) ∧
    importApply [] (exportDocument [⟨"a", "b"⟩]) =
      [Quote.mk "a" "b"].map quoteToJson ∧
    Function.Injective quoteToJson :=
  exportImport_roundTrip [⟨"a", "b"⟩] (by decide)
    (fun q hq => by
      rw [List.mem_singleton.mp hq]
      exact ⟨by decide, by decide⟩)

end QuoteApp
